import Mathlib

set_option maxHeartbeats 1000000

namespace SvnAuthz

/-! Generic association-list and list helpers used by the model. All
definitions are fully executable so that concrete permission checks can be
evaluated by the kernel. -/

/-- Association-list lookup, first binding wins (models a Python dict lookup). -/
def alookup {α β : Type} [DecidableEq α] (k : α) : List (α × β) → Option β
  | [] => none
  | e :: rest => if e.1 = k then some e.2 else alookup k rest

/-- Replace the first binding of a key, or append a fresh binding at the end
(models assignment into a Python dict, which keeps insertion order). -/
def setEntry {α β : Type} [DecidableEq α] (k : α) (v : β) : List (α × β) → List (α × β)
  | [] => [(k, v)]
  | e :: rest => if e.1 = k then (k, v) :: rest else e :: setEntry k v rest

/-- Boolean list membership. -/
def memB {α : Type} [DecidableEq α] (a : α) : List α → Bool
  | [] => false
  | b :: bs => if b = a then true else memB a bs

/-- Boolean existential over a list. -/
def anyB {α : Type} (p : α → Bool) : List α → Bool
  | [] => false
  | a :: as => if p a then true else anyB p as

/-- Concatenation of the images of a list under a list-valued function. -/
def listFlat {α β : Type} (f : α → List β) : List α → List β
  | [] => []
  | a :: as => f a ++ listFlat f as

/-- First defined value of an option-valued function along a list. -/
def firstSome {α β : Type} (f : α → Option β) : List α → Option β
  | [] => none
  | a :: as =>
      match f a with
      | some b => some b
      | none => firstSome f as

/-- Boolean test that the first list is a prefix of the second. -/
def isPrefixB {α : Type} [DecidableEq α] : List α → List α → Bool
  | [], _ => true
  | _ :: _, [] => false
  | a :: as, b :: bs => if a = b then isPrefixB as bs else false

/-- All prefixes of a list, in ascending length order (ending with the full list). -/
def prefixesAsc {α : Type} : List α → List (List α)
  | [] => [[]]
  | a :: as => [] :: (prefixesAsc as).map (fun q => a :: q)

/-! The authorization data model.

The Subversion authorization machinery of this repository lives in
trac/versioncontrol/svn_authz.py, which is not among the included sources;
only its test suite (src/trac/versioncontrol/tests/svn_authz.py) is. The
definitions below are therefore modelled from the specification (sections 3
and 4.1), with the observable behavior fixed by that test suite. Paths are
represented as lists of path segments, so the root path /a/b is the list
of segments a, b; the root itself is the empty list. -/

/-- Modelled from the spec: a principal occurring in an authorization file
entry of trac/versioncontrol/svn_authz.py (absent from src): a plain user
name (which includes the verbatim tokens star, dollar-anonymous and
dollar-authenticated), a group reference written with an at sign, or an
alias reference written with an ampersand. -/
inductive Subject : Type
  | user (name : String)
  | group (name : String)
  | aliasRef (name : String)
deriving DecidableEq, Repr

/-- Modelled from the spec: the contents of an authorization file of
trac/versioncontrol/svn_authz.py (absent from src): group definitions,
alias definitions, and path sections. Each path section carries a module
name (empty string for the unscoped module), a path, and an ordered list of
entries mapping a subject to a permission string. -/
structure AuthzFile : Type where
  groups : List (String × List Subject)
  aliases : List (String × String)
  sections : List (String × List String × List (Subject × String))
deriving DecidableEq

/-- A parsed path section: principal name to boolean grant. -/
abbrev Section : Type := List (String × Bool)

/-- A parsed authorization structure: module name to path to section. -/
abbrev Authz : Type := List (String × List (List String × Section))

/-- Whether a list of characters contains the character r. -/
def hasR : List Char → Bool
  | [] => false
  | c :: cs => if c = 'r' then true else hasR cs

/-- Modelled from the spec: an entry of trac/versioncontrol/svn_authz.py
(absent from src) grants read access exactly when its permission string
contains the character r. -/
def readable (perms : String) : Bool := hasR perms.data

/-- The members of a named group (empty when the group is undefined). -/
def membersOf (groups : List (String × List Subject)) (g : String) : List Subject :=
  (alookup g groups).getD []

/-- Modelled from the spec: fuel-indexed expansion of a subject of
trac/versioncontrol/svn_authz.py (absent from src) into the user names it
stands for. A group reference expands recursively into its members; the
accumulator of already-visited group names tolerates cyclic group
definitions without looping; an alias reference is replaced by the aliased
identity. -/
def resolveFuel (groups : List (String × List Subject)) (aliases : List (String × String)) :
    Nat → List String → Subject → List String
  | _, _, Subject.user u => [u]
  | _, _, Subject.aliasRef a =>
      match alookup a aliases with
      | some v => [v]
      | none => []
  | 0, _, Subject.group _ => []
  | fuel + 1, done, Subject.group g =>
      if memB g done then []
      else listFlat (resolveFuel groups aliases fuel (g :: done)) (membersOf groups g)

/-- Modelled from the spec: full expansion of a subject; the fuel exceeds
the number of group definitions, which bounds the depth of the
visited-set recursion. -/
def resolveSubject (groups : List (String × List Subject)) (aliases : List (String × String))
    (s : Subject) : List String :=
  resolveFuel groups aliases (groups.length + 1) [] s

/-- Modelled from the spec: record a grant for each resolved user of one
entry; a user already holding a positive grant in the section is not
overwritten, so any entry of a section can grant a permission. -/
def applyUsers (b : Bool) : Section → List String → Section
  | sec, [] => sec
  | sec, u :: us =>
      applyUsers b (if (alookup u sec).getD false then sec else setEntry u b sec) us

/-- Modelled from the spec: fold the entries of one path section of
trac/versioncontrol/svn_authz.py (absent from src) into a parsed section. -/
def applyItems (f : AuthzFile) : Section → List (Subject × String) → Section
  | sec, [] => sec
  | sec, it :: its =>
      applyItems f (applyUsers (readable it.2) sec (resolveSubject f.groups f.aliases it.1)) its

/-- Merge the entries of one file section into the per-path table of a module. -/
def updatePath (f : AuthzFile) (p : List String) (items : List (Subject × String)) :
    List (List String × Section) → List (List String × Section)
  | [] => [(p, applyItems f [] items)]
  | e :: rest =>
      if e.1 = p then (p, applyItems f e.2 items) :: rest
      else e :: updatePath f p items rest

/-- Fold all file sections belonging to one module into its per-path table. -/
def buildModuleAux (f : AuthzFile) (m : String) :
    List (List String × Section) →
    List (String × List String × List (Subject × String)) → List (List String × Section)
  | acc, [] => acc
  | acc, s :: ss =>
      buildModuleAux f m (if s.1 = m then updatePath f s.2.1 s.2.2 acc else acc) ss

/-- The parsed per-path table of one module. -/
def buildModule (f : AuthzFile) (m : String) : List (List String × Section) :=
  buildModuleAux f m [] f.sections

/-- Modelled from the spec: the parse function of
trac/versioncontrol/svn_authz.py (absent from src). It turns an
authorization file into per-module, per-path, per-principal boolean grants,
expanding group references (with cycle tolerance) and alias references;
exactly the modules of the given collection are retained. -/
def parse (f : AuthzFile) (modules : List String) : Authz :=
  modules.map (fun m => (m, buildModule f m))

/-! The permission check. -/

/-- Modelled from the spec: the principal tokens consulted for a user, in
order: the anonymous user is matched by the dollar-anonymous token and the
star wildcard; any other user by its own name, the dollar-authenticated
token and the star wildcard. -/
def usernamesFor (u : String) : List String :=
  if u = "anonymous" then ["$anonymous", "*"] else [u, "$authenticated", "*"]

/-- Modelled from the spec: the modules consulted for a repository: the
module named like the repository followed by the unscoped module as
fallback, or just the unscoped module for the default repository. -/
def modulesFor (repo : String) : List String :=
  if repo = "" then [""] else [repo, ""]

/-- The non-empty parsed sections registered at exactly the given path, one
per consulted module, module-qualified section first. -/
def sectionsAt (authz : Authz) (mods : List String) (spath : List String) : List Section :=
  mods.filterMap (fun m =>
    match alookup spath ((alookup m authz).getD []) with
    | none => none
    | some sec => if sec.isEmpty then none else some sec)

/-- The grant recorded for a token in the first section that mentions it. -/
def firstMatch (tok : String) : List Section → Option Bool
  | [] => none
  | s :: rest =>
      match alookup tok s with
      | some b => some b
      | none => firstMatch tok rest

/-- Modelled from the spec: decide a path section for a list of principal
tokens. A token granting read access decides positively at once; a token
found with a negative grant marks the check denied and later tokens are
still consulted; when no token is mentioned at all the check is undecided. -/
def decideTokens (secs : List Section) : List String → Bool → Option Bool
  | [], denied => if denied then some false else none
  | tok :: rest, denied =>
      match firstMatch tok secs with
      | some true => some true
      | some false => decideTokens secs rest true
      | none => decideTokens secs rest denied

/-- Modelled from the spec: the decision taken at exactly one path, reading
each token from the module-qualified section when it defines the token and
falling back to the unscoped section otherwise. -/
def checkPath0 (authz : Authz) (mods : List String) (us : List String)
    (spath : List String) : Option Bool :=
  decideTokens (sectionsAt authz mods spath) us false

/-- All paths carrying a section in any consulted module. -/
def sectionPaths (authz : Authz) (mods : List String) : List (List String) :=
  listFlat (fun m => ((alookup m authz).getD []).map Prod.fst) mods

/-- Modelled from the spec: walk from the checked path up through its parent
directories and return the decision of the most specific path section that
yields one. -/
def checkPathAux (authz : Authz) (mods : List String) (us : List String)
    (full : List String) : Option Bool :=
  firstSome (checkPath0 authz mods us) (prefixesAsc full).reverse

/-- Modelled from the spec: the full path check of
trac/versioncontrol/svn_authz.py (absent from src). The checked path is
first prefixed with the repository scope; the path is readable outright
when some section at or below it grants access (so parent directories of
readable resources stay browsable); otherwise the decision is inherited
from the most specific matching path section. -/
def checkPath (authz : Authz) (mods : List String) (us : List String)
    (scope : List String) (p : List String) : Option Bool :=
  let full := scope ++ p
  if anyB (fun sp => isPrefixB full sp && (checkPath0 authz mods us sp).getD false)
       (sectionPaths authz mods)
  then some true
  else checkPathAux authz mods us full

/-- Modelled from the spec: a changeset is viewable when it is empty or at
least one changed path is readable; otherwise the check is undecided. -/
def checkChangeset (authz : Authz) (mods : List String) (us : List String)
    (scope : List String) (changes : List (List String)) : Option Bool :=
  if changes.isEmpty || anyB (fun c => (checkPath authz mods us scope c).getD false) changes
  then some true
  else none

/-- The users holding at least one positive grant anywhere in the parsed
structure; used for coarse checks without a concrete resource. -/
def usersWithGrant (authz : Authz) : List String :=
  listFlat
    (fun me => listFlat (fun pe => pe.2.filterMap (fun e => if e.2 then some e.1 else none)) me.2)
    authz

/-! The stateful permission policy: configuration, file system view, cache. -/

/-- Modelled from the spec: the view a policy has of one repository: its
scope inside the authorization namespace and, for each revision, the list
of paths changed by the changeset of that revision. -/
structure Repo : Type where
  scope : List String
  changes : Nat → List (List String)

/-- Modelled from the spec: the environment of the policy of
trac/versioncontrol/svn_authz.py (absent from src): the configured
authz-file option (absent, or a file name possibly empty), the current
state of that file (absent, or a modification time together with its
parseable contents, the contents being absent when parsing fails), the
names of the real repositories, and the repository table. -/
structure Env : Type where
  authzFileOpt : Option String
  file : Option (Nat × Option AuthzFile)
  realRepos : List String
  repos : String → Repo

/-- The modules retained while parsing: every real repository name plus the
unscoped module. -/
def parseModules (env : Env) : List String := env.realRepos ++ [""]

/-- Modelled from the spec: the cache of the policy: the modification time
of the last parse attempt and its result (absent when that parse failed). -/
structure CacheState : Type where
  mtime : Nat
  authz : Option Authz

/-- The state of a freshly constructed policy. -/
def initState : CacheState := ⟨0, some []⟩

/-- Modelled from the spec: obtain the parsed authorization structure,
re-parsing the file only when its modification time differs from the
cached one; a missing or empty option, a missing file, or unparseable
contents raise a configuration error. -/
def getAuthzInfo (env : Env) (st : CacheState) : CacheState × Except Unit Authz :=
  match env.authzFileOpt with
  | none => (st, Except.error ())
  | some fname =>
    if fname = "" then (st, Except.error ())
    else
      match env.file with
      | none => (st, Except.error ())
      | some (mtime, content) =>
        if mtime = st.mtime then
          match st.authz with
          | none => (st, Except.error ())
          | some a => (st, Except.ok a)
        else
          match content with
          | none => (⟨mtime, none⟩, Except.error ())
          | some f => (⟨mtime, some (parse f (parseModules env))⟩,
                       Except.ok (parse f (parseModules env)))

/-- Modelled from the spec: a resource a permission check is about: a source
path or a changeset revision, each inside a named repository. -/
inductive Rsrc : Type
  | source (repo : String) (path : List String)
  | changeset (repo : String) (rev : Nat)

/-- Modelled from the spec: the pure decision for one check given a parsed
authorization structure: a coarse check without a resource succeeds when
some consulted token holds a positive grant anywhere; a source check walks
the path rules; a changeset check inspects the changed paths. -/
def evalCheck (env : Env) (authz : Authz) (user : String) : Option Rsrc → Option Bool
  | none =>
      if anyB (fun t => memB t (usersWithGrant authz)) (usernamesFor user) then some true
      else none
  | some (Rsrc.source repo p) =>
      checkPath authz (modulesFor repo) (usernamesFor user) (env.repos repo).scope p
  | some (Rsrc.changeset repo rev) =>
      checkChangeset authz (modulesFor repo) (usernamesFor user) (env.repos repo).scope
        ((env.repos repo).changes rev)

/-- Modelled from the spec: the full permission check of
trac/versioncontrol/svn_authz.py (absent from src), threading the cache
state and raising a configuration error exactly when the authorization
structure cannot be obtained. -/
def checkPermission (env : Env) (st : CacheState) (user : String) (res : Option Rsrc) :
    CacheState × Except Unit (Option Bool) :=
  match getAuthzInfo env st with
  | (st2, Except.error e) => (st2, Except.error e)
  | (st2, Except.ok a) => (st2, Except.ok (evalCheck env a user res))

/-- Reference evaluator with no cache: read and parse the file on every
check. -/
def readAuthz (env : Env) : Except Unit Authz :=
  match env.authzFileOpt with
  | none => Except.error ()
  | some fname =>
    if fname = "" then Except.error ()
    else
      match env.file with
      | none => Except.error ()
      | some (_, none) => Except.error ()
      | some (_, some f) => Except.ok (parse f (parseModules env))

/-- Reference permission check with no cache. -/
def checkPermissionFresh (env : Env) (user : String) (res : Option Rsrc) :
    Except Unit (Option Bool) :=
  (readAuthz env).map (fun a => evalCheck env a user res)

/-- The cache agrees with the file system: when the cached modification time
is the current one, the cached result is the parse of the current
contents (and is the failure marker when the contents are unparseable). -/
def CacheConsistent (env : Env) (st : CacheState) : Prop :=
  ∀ mtime content, env.file = some (mtime, content) → st.mtime = mtime →
    st.authz = content.map (fun f => parse f (parseModules env))

/-- A chain of group names in which every group lists the next one as a
member (written as a boolean so concrete chains evaluate). -/
def chainB (groups : List (String × List Subject)) : List String → Bool
  | [] => true
  | [_] => true
  | a :: b :: rest => memB (Subject.group b) (membersOf groups a) && chainB groups (b :: rest)

/-- Every grant of a parsed section traces back to a file entry of the same
module and path whose subject resolves to the granted user. -/
def SecTraced (f : AuthzFile) (m : String) (p : List String) (sec : Section) : Prop :=
  ∀ u b, (u, b) ∈ sec → ∃ items s perms, (m, p, items) ∈ f.sections ∧ (s, perms) ∈ items ∧
    u ∈ resolveSubject f.groups f.aliases s

/-! Basic lemmas about the list helpers. -/

theorem getD_false_eq_true_iff (o : Option Bool) : o.getD false = true ↔ o = some true := by
  cases o with
  | none => simp
  | some b => cases b <;> simp

theorem alookup_setEntry {α β : Type} [DecidableEq α] (k k2 : α) (v : β) (l : List (α × β)) :
    alookup k2 (setEntry k v l) = if k = k2 then some v else alookup k2 l := by
  induction l with
  | nil => simp [setEntry, alookup]
  | cons e rest ih =>
      obtain ⟨a, c⟩ := e
      by_cases h1 : a = k
      · subst h1
        by_cases h2 : a = k2 <;> simp [setEntry, alookup, h2]
      · by_cases h2 : a = k2
        · subst h2
          have h3 : ¬ k = a := fun h => h1 h.symm
          simp [setEntry, alookup, h1, h3]
        · simp [setEntry, alookup, h1, h2, ih]

theorem alookup_eq_some_key_mem {α β : Type} [DecidableEq α] (k : α) (v : β)
    (l : List (α × β)) (h : alookup k l = some v) : k ∈ l.map Prod.fst := by
  induction l with
  | nil => simp [alookup] at h
  | cons e rest ih =>
      by_cases h1 : e.1 = k
      · simp [h1.symm]
      · simp only [alookup, h1, if_neg] at h
        simp [ih h]

theorem memB_iff {α : Type} [DecidableEq α] (a : α) (l : List α) : memB a l = true ↔ a ∈ l := by
  induction l with
  | nil => simp [memB]
  | cons b bs ih =>
      by_cases h : b = a
      · simp [memB, h]
      · have h2 : ¬ a = b := fun h3 => h h3.symm
        simp [memB, h, ih, h2]

theorem anyB_iff {α : Type} (p : α → Bool) (l : List α) :
    anyB p l = true ↔ ∃ x ∈ l, p x = true := by
  induction l with
  | nil => simp [anyB]
  | cons a as ih =>
      by_cases h : p a = true
      · simp [anyB, h]
      · simp only [Bool.not_eq_true] at h
        simp [anyB, h, ih]

theorem anyB_eq_false_iff {α : Type} (p : α → Bool) (l : List α) :
    anyB p l = false ↔ ∀ x ∈ l, p x = false := by
  rw [← Bool.not_eq_true, anyB_iff]
  simp

theorem mem_listFlat {α β : Type} (f : α → List β) (l : List α) (x : β) :
    x ∈ listFlat f l ↔ ∃ a ∈ l, x ∈ f a := by
  induction l with
  | nil => simp [listFlat]
  | cons a as ih => simp [listFlat, ih]

theorem firstSome_append {α β : Type} (f : α → Option β) (l1 l2 : List α) :
    firstSome f (l1 ++ l2) =
      match firstSome f l1 with
      | some b => some b
      | none => firstSome f l2 := by
  induction l1 with
  | nil => simp [firstSome]
  | cons a as ih =>
      simp only [List.cons_append, firstSome]
      cases f a <;> simp [ih]

theorem firstSome_eq_none_iff {α β : Type} (f : α → Option β) (l : List α) :
    firstSome f l = none ↔ ∀ x ∈ l, f x = none := by
  induction l with
  | nil => simp [firstSome]
  | cons a as ih =>
      simp only [firstSome]
      cases h : f a <;> simp [h, ih]

theorem isPrefixB_iff {α : Type} [DecidableEq α] (l1 l2 : List α) :
    isPrefixB l1 l2 = true ↔ l1 <+: l2 := by
  induction l1 generalizing l2 with
  | nil => simp [isPrefixB, List.nil_prefix]
  | cons a as ih =>
      cases l2 with
      | nil => simp [isPrefixB]
      | cons b bs =>
          by_cases h : a = b
          · simp [isPrefixB, h, ih, List.cons_prefix_cons]
          · simp [isPrefixB, h, List.cons_prefix_cons]

theorem mem_prefixesAsc {α : Type} (q p : List α) : q ∈ prefixesAsc p ↔ q <+: p := by
  induction p generalizing q with
  | nil => simp [prefixesAsc, List.prefix_nil]
  | cons a as ih =>
      simp only [prefixesAsc, List.mem_cons, List.mem_map]
      constructor
      · rintro (rfl | ⟨r, hr, rfl⟩)
        · exact List.nil_prefix
        · exact List.cons_prefix_cons.mpr ⟨rfl, (ih r).mp hr⟩
      · intro h
        cases q with
        | nil => exact Or.inl rfl
        | cons b bs =>
            obtain ⟨rfl, hbs⟩ := List.cons_prefix_cons.mp h
            exact Or.inr ⟨bs, (ih bs).mpr hbs, rfl⟩

theorem prefixesAsc_split {α : Type} (q p : List α) (h : q <+: p) :
    ∃ l, prefixesAsc p = prefixesAsc q ++ l ∧ ∀ r ∈ l, q <+: r ∧ r ≠ q ∧ r <+: p := by
  induction q generalizing p with
  | nil =>
      cases p with
      | nil => exact ⟨[], by simp [prefixesAsc], by simp⟩
      | cons a as =>
          refine ⟨(prefixesAsc as).map (fun r => a :: r), by simp [prefixesAsc], ?_⟩
          intro r hr
          obtain ⟨r2, hr2, rfl⟩ := List.mem_map.mp hr
          exact ⟨List.nil_prefix, by simp,
            List.cons_prefix_cons.mpr ⟨rfl, (mem_prefixesAsc r2 as).mp hr2⟩⟩
  | cons b qs ih =>
      cases p with
      | nil => simp [List.prefix_nil] at h
      | cons a ps =>
          obtain ⟨rfl, hqp⟩ := List.cons_prefix_cons.mp h
          obtain ⟨l2, hEq, hProps⟩ := ih ps hqp
          refine ⟨l2.map (fun r => b :: r), ?_, ?_⟩
          · simp [prefixesAsc, hEq]
          · intro r hr
            obtain ⟨r2, hr2, rfl⟩ := List.mem_map.mp hr
            obtain ⟨hp1, hp2, hp3⟩ := hProps r2 hr2
            refine ⟨List.cons_prefix_cons.mpr ⟨rfl, hp1⟩, ?_,
              List.cons_prefix_cons.mpr ⟨rfl, hp3⟩⟩
            intro hcontra
            exact hp2 (by injection hcontra)

theorem prefixesAsc_concat {α : Type} (p : List α) : ∃ l, prefixesAsc p = l ++ [p] := by
  induction p with
  | nil => exact ⟨[], rfl⟩
  | cons a as ih =>
      obtain ⟨l, hl⟩ := ih
      exact ⟨[] :: l.map (fun q => a :: q), by simp [prefixesAsc, hl]⟩

/-! Characterizations of the token decision procedure. -/

theorem firstMatch_append (tok : String) (l1 l2 : List Section) :
    firstMatch tok (l1 ++ l2) =
      match firstMatch tok l1 with
      | some b => some b
      | none => firstMatch tok l2 := by
  induction l1 with
  | nil => simp [firstMatch]
  | cons s rest ih =>
      simp only [List.cons_append, firstMatch]
      cases alookup tok s <;> simp [ih]

theorem decideTokens_eq_some_true_iff (secs : List Section) (toks : List String)
    (denied : Bool) :
    decideTokens secs toks denied = some true ↔
      ∃ tok ∈ toks, firstMatch tok secs = some true := by
  induction toks generalizing denied with
  | nil => cases denied <;> simp [decideTokens]
  | cons tok rest ih =>
      simp only [decideTokens]
      cases h : firstMatch tok secs with
      | none => simp [h, ih]
      | some b => cases b <;> simp [h, ih]

theorem decideTokens_eq_none_iff (secs : List Section) (toks : List String) (denied : Bool) :
    decideTokens secs toks denied = none ↔
      denied = false ∧ ∀ tok ∈ toks, firstMatch tok secs = none := by
  induction toks generalizing denied with
  | nil => cases denied <;> simp [decideTokens]
  | cons tok rest ih =>
      simp only [decideTokens]
      cases h : firstMatch tok secs with
      | none => simp [h, ih]
      | some b => cases b <;> simp [h, ih]

theorem decideTokens_eq_some_false_iff (secs : List Section) (toks : List String)
    (denied : Bool) :
    decideTokens secs toks denied = some false ↔
      (¬ ∃ tok ∈ toks, firstMatch tok secs = some true) ∧
      (denied = true ∨ ∃ tok ∈ toks, (firstMatch tok secs).isSome = true) := by
  induction toks generalizing denied with
  | nil => cases denied <;> simp [decideTokens]
  | cons tok rest ih =>
      simp only [decideTokens]
      cases h : firstMatch tok secs with
      | none => simp [h, ih]
      | some b => cases b <;> simp [h, ih]

theorem checkPath0_eq_some_true_iff (authz : Authz) (mods us : List String)
    (spath : List String) :
    checkPath0 authz mods us spath = some true ↔
      ∃ tok ∈ us, firstMatch tok (sectionsAt authz mods spath) = some true := by
  rw [checkPath0, decideTokens_eq_some_true_iff]

theorem checkPath0_eq_none_iff (authz : Authz) (mods us : List String) (spath : List String) :
    checkPath0 authz mods us spath = none ↔
      ∀ tok ∈ us, firstMatch tok (sectionsAt authz mods spath) = none := by
  rw [checkPath0, decideTokens_eq_none_iff]
  simp

theorem checkPath0_eq_some_false_iff (authz : Authz) (mods us : List String)
    (spath : List String) :
    checkPath0 authz mods us spath = some false ↔
      (¬ ∃ tok ∈ us, firstMatch tok (sectionsAt authz mods spath) = some true) ∧
      ∃ tok ∈ us, (firstMatch tok (sectionsAt authz mods spath)).isSome = true := by
  rw [checkPath0, decideTokens_eq_some_false_iff]
  simp

/-! Lemmas about the parent-directory walk. -/

theorem checkPathAux_eq_none_iff (authz : Authz) (mods us : List String)
    (full : List String) :
    checkPathAux authz mods us full = none ↔
      ∀ q, q <+: full → checkPath0 authz mods us q = none := by
  rw [checkPathAux, firstSome_eq_none_iff]
  constructor
  · intro h q hq
    exact h q (by rw [List.mem_reverse, mem_prefixesAsc]; exact hq)
  · intro h q hq
    exact h q ((mem_prefixesAsc q full).mp (List.mem_reverse.mp hq))

theorem checkPathAux_most_specific (authz : Authz) (mods us : List String)
    (full q : List String) (b : Bool)
    (hq : q <+: full)
    (hdec : checkPath0 authz mods us q = some b)
    (hmax : ∀ r, q <+: r → r <+: full → r ≠ q → checkPath0 authz mods us r = none) :
    checkPathAux authz mods us full = some b := by
  obtain ⟨l, hsplit, hl⟩ := prefixesAsc_split q full hq
  obtain ⟨lq, hlq⟩ := prefixesAsc_concat q
  rw [checkPathAux, hsplit, List.reverse_append, firstSome_append]
  have hnone : firstSome (checkPath0 authz mods us) l.reverse = none := by
    rw [firstSome_eq_none_iff]
    intro r hr
    obtain ⟨h1, h2, h3⟩ := hl r (List.mem_reverse.mp hr)
    exact hmax r h1 h3 h2
  rw [hnone]
  show firstSome (checkPath0 authz mods us) (prefixesAsc q).reverse = some b
  rw [hlq, List.reverse_append]
  simp [firstSome, hdec]

theorem checkPath_eq_aux_of_no_descendant (authz : Authz) (mods us scope p : List String)
    (hnd : ∀ sp ∈ sectionPaths authz mods, (scope ++ p) <+: sp →
      checkPath0 authz mods us sp ≠ some true) :
    checkPath authz mods us scope p = checkPathAux authz mods us (scope ++ p) := by
  have hfalse : anyB
      (fun sp => isPrefixB (scope ++ p) sp && (checkPath0 authz mods us sp).getD false)
      (sectionPaths authz mods) = false := by
    rw [anyB_eq_false_iff]
    intro sp hsp
    by_cases hpre : (scope ++ p) <+: sp
    · have hne := hnd sp hsp hpre
      cases hcp : checkPath0 authz mods us sp with
      | none => simp [hcp]
      | some bb =>
          cases bb
          · simp [hcp]
          · exact absurd hcp hne
    · have hb : isPrefixB (scope ++ p) sp = false := by
        rw [← Bool.not_eq_true, isPrefixB_iff]
        exact hpre
      simp [hb]
  simp only [checkPath, hfalse, Bool.false_eq_true, if_false]

/-! Lemmas about section construction during parsing. -/

theorem alookup_applyUsers (b : Bool) (sec : Section) (users : List String) (u : String) :
    alookup u (applyUsers b sec users) =
      if u ∈ users then (if alookup u sec = some true then some true else some b)
      else alookup u sec := by
  induction users generalizing sec with
  | nil => simp [applyUsers]
  | cons v vs ih =>
      simp only [applyUsers]
      rw [ih]
      by_cases hv : (alookup v sec).getD false = true
      · rw [if_pos hv]
        rw [getD_false_eq_true_iff] at hv
        by_cases huv : u = v
        · subst huv
          simp [hv, List.mem_cons]
        · simp [List.mem_cons, huv]
      · rw [if_neg hv]
        have hvne : alookup v sec ≠ some true := fun hh =>
          hv ((getD_false_eq_true_iff _).mpr hh)
        by_cases huv : u = v
        · subst huv
          cases b <;> simp [alookup_setEntry, hvne, List.mem_cons]
        · have hvu : ¬ v = u := fun hh => huv hh.symm
          simp [alookup_setEntry, hvu, List.mem_cons, huv]

theorem anyB_and_false {α : Type} (m r : α → Bool) (l : List α) (h : anyB m l = false) :
    anyB (fun x => m x && r x) l = false := by
  rw [anyB_eq_false_iff] at h ⊢
  intro x hx
  simp [h x hx]

theorem alookup_applyItems (f : AuthzFile) (sec : Section) (items : List (Subject × String))
    (u : String) :
    alookup u (applyItems f sec items) =
      if alookup u sec = some true then some true
      else if anyB (fun it => memB u (resolveSubject f.groups f.aliases it.1)) items
      then some (anyB (fun it => memB u (resolveSubject f.groups f.aliases it.1)
                        && readable it.2) items)
      else alookup u sec := by
  induction items generalizing sec with
  | nil => by_cases h : alookup u sec = some true <;> simp [applyItems, anyB, h]
  | cons it its ih =>
      simp only [applyItems]
      rw [ih, alookup_applyUsers]
      by_cases hm : u ∈ resolveSubject f.groups f.aliases it.1
      · have hmB : memB u (resolveSubject f.groups f.aliases it.1) = true :=
          (memB_iff _ _).mpr hm
        by_cases hp : alookup u sec = some true
        · simp [hm, hp, anyB, hmB]
        · cases hr : readable it.2 with
          | true => simp [hm, hp, anyB, hmB, hr]
          | false =>
              cases hA : anyB (fun it2 =>
                  memB u (resolveSubject f.groups f.aliases it2.1)) its with
              | true => simp [hm, hp, anyB, hmB, hr, hA]
              | false =>
                  have hG := anyB_and_false
                    (fun it2 => memB u (resolveSubject f.groups f.aliases it2.1))
                    (fun it2 => readable it2.2) its hA
                  simp [hm, hp, anyB, hmB, hr, hA, hG]
      · have hmB : memB u (resolveSubject f.groups f.aliases it.1) = false := by
          rw [← Bool.not_eq_true, memB_iff]
          exact hm
        simp [hm, anyB, hmB]

theorem mem_setEntry {α β : Type} [DecidableEq α] (k : α) (v : β) (l : List (α × β))
    (x : α × β) (h : x ∈ setEntry k v l) : x ∈ l ∨ x.1 = k := by
  induction l with
  | nil =>
      simp [setEntry] at h
      simp [h]
  | cons e rest ih =>
      by_cases he : e.1 = k
      · simp only [setEntry, he, if_pos] at h
        rcases List.mem_cons.mp h with h1 | h1
        · exact Or.inr (by simp [h1])
        · exact Or.inl (List.mem_cons_of_mem _ h1)
      · simp only [setEntry, he, if_neg, Bool.false_eq_true] at h
        rcases List.mem_cons.mp h with h1 | h1
        · exact Or.inl (by simp [h1])
        · rcases ih h1 with h2 | h2
          · exact Or.inl (List.mem_cons_of_mem _ h2)
          · exact Or.inr h2

theorem mem_applyUsers (b : Bool) (sec : Section) (users : List String) (x : String × Bool)
    (h : x ∈ applyUsers b sec users) : x ∈ sec ∨ x.1 ∈ users := by
  induction users generalizing sec with
  | nil => exact Or.inl h
  | cons v vs ih =>
      simp only [applyUsers] at h
      rcases ih _ h with h1 | h1
      · by_cases hv : (alookup v sec).getD false = true
        · rw [if_pos hv] at h1
          exact Or.inl h1
        · rw [if_neg hv] at h1
          rcases mem_setEntry v b sec x h1 with h2 | h2
          · exact Or.inl h2
          · exact Or.inr (by simp [h2])
      · exact Or.inr (List.mem_cons_of_mem _ h1)

theorem mem_applyItems (f : AuthzFile) (sec : Section) (items : List (Subject × String))
    (x : String × Bool) (h : x ∈ applyItems f sec items) :
    x ∈ sec ∨ ∃ it ∈ items, x.1 ∈ resolveSubject f.groups f.aliases it.1 := by
  induction items generalizing sec with
  | nil => exact Or.inl h
  | cons it its ih =>
      simp only [applyItems] at h
      rcases ih _ h with h1 | h1
      · rcases mem_applyUsers _ _ _ _ h1 with h2 | h2
        · exact Or.inl h2
        · exact Or.inr ⟨it, List.mem_cons_self _ _, h2⟩
      · obtain ⟨it2, hit2, hres⟩ := h1
        exact Or.inr ⟨it2, List.mem_cons_of_mem _ hit2, hres⟩

theorem mem_updatePath (f : AuthzFile) (p : List String) (items : List (Subject × String))
    (acc : List (List String × Section)) (e : List String × Section)
    (h : e ∈ updatePath f p items acc) :
    e ∈ acc ∨ (e.1 = p ∧ ∃ sec0, e.2 = applyItems f sec0 items
      ∧ (sec0 = [] ∨ (p, sec0) ∈ acc)) := by
  induction acc with
  | nil =>
      simp only [updatePath, List.mem_singleton] at h
      exact Or.inr ⟨by simp [h], [], by simp [h], Or.inl rfl⟩
  | cons a rest ih =>
      by_cases ha : a.1 = p
      · simp only [updatePath, ha, if_pos] at h
        rcases List.mem_cons.mp h with h1 | h1
        · refine Or.inr ⟨by simp [h1], a.2, by simp [h1], Or.inr ?_⟩
          have : a = (p, a.2) := by
            rw [← ha]
          rw [← this]
          exact List.mem_cons_self _ _
        · exact Or.inl (List.mem_cons_of_mem _ h1)
      · simp only [updatePath, ha, if_neg, Bool.false_eq_true] at h
        rcases List.mem_cons.mp h with h1 | h1
        · exact Or.inl (by simp [h1])
        · rcases ih h1 with h2 | h2
          · exact Or.inl (List.mem_cons_of_mem _ h2)
          · obtain ⟨hp, sec0, hsec, hin⟩ := h2
            refine Or.inr ⟨hp, sec0, hsec, ?_⟩
            rcases hin with h3 | h3
            · exact Or.inl h3
            · exact Or.inr (List.mem_cons_of_mem _ h3)

theorem buildModuleAux_traced (f : AuthzFile) (m : String) :
    ∀ (ss : List (String × List String × List (Subject × String)))
      (acc : List (List String × Section)),
      (∀ s ∈ ss, s ∈ f.sections) →
      (∀ p sec, (p, sec) ∈ acc → SecTraced f m p sec) →
      ∀ p sec, (p, sec) ∈ buildModuleAux f m acc ss → SecTraced f m p sec := by
  intro ss
  induction ss with
  | nil =>
      intro acc _ hacc p sec hmem
      exact hacc p sec hmem
  | cons s ss2 ih =>
      intro acc hss hacc p sec hmem
      simp only [buildModuleAux] at hmem
      by_cases hsm : s.1 = m
      · rw [if_pos hsm] at hmem
        refine ih _ (fun s2 hs2 => hss s2 (List.mem_cons_of_mem _ hs2)) ?_ p sec hmem
        intro p2 sec2 hmem2
        rcases mem_updatePath f s.2.1 s.2.2 acc (p2, sec2) hmem2 with h1 | h1
        · exact hacc p2 sec2 h1
        · obtain ⟨hp2, sec0, hsec2, hin⟩ := h1
          have hp2b : p2 = s.2.1 := hp2
          have hsec2b : sec2 = applyItems f sec0 s.2.2 := hsec2
          subst hp2b
          intro u b hub
          rw [hsec2b] at hub
          rcases mem_applyItems f sec0 s.2.2 (u, b) hub with h2 | h2
          · rcases hin with h3 | h3
            · rw [h3] at h2
              simp at h2
            · exact hacc s.2.1 sec0 h3 u b h2
          · obtain ⟨it, hit, hres⟩ := h2
            refine ⟨s.2.2, it.1, it.2, ?_, by simpa using hit, hres⟩
            have hs : s = (m, s.2.1, s.2.2) := by
              rw [← hsm]
            have hself : s ∈ f.sections := hss s (List.mem_cons_self _ _)
            rw [hs] at hself
            exact hself
      · rw [if_neg hsm] at hmem
        exact ih _ (fun s2 hs2 => hss s2 (List.mem_cons_of_mem _ hs2)) hacc p sec hmem

theorem parse_keys (f : AuthzFile) (modules : List String) :
    (parse f modules).map Prod.fst = modules := by
  rw [parse, List.map_map]
  exact List.map_id modules

theorem alookup_parse_not_mem (f : AuthzFile) (modules : List String) (m : String)
    (h : m ∉ modules) : alookup m (parse f modules) = none := by
  induction modules with
  | nil => simp [parse, alookup]
  | cons m2 ms ih =>
      have h1 : ¬ m2 = m := by
        intro hh
        exact h (by simp [hh])
      simp only [parse, List.map, alookup, h1, if_neg, Bool.false_eq_true]
      exact ih (fun hm => h (List.mem_cons_of_mem _ hm))

theorem sectionsAt_append (authz : Authz) (mods1 mods2 : List String) (spath : List String) :
    sectionsAt authz (mods1 ++ mods2) spath =
      sectionsAt authz mods1 spath ++ sectionsAt authz mods2 spath := by
  simp [sectionsAt, List.filterMap_append]

theorem firstMatch_modulesFor (authz : Authz) (m : String) (spath : List String)
    (tok : String) :
    firstMatch tok (sectionsAt authz (modulesFor m) spath) =
      match firstMatch tok (sectionsAt authz [m] spath) with
      | some b => some b
      | none => firstMatch tok (sectionsAt authz [""] spath) := by
  by_cases hm : m = ""
  · subst hm
    simp only [modulesFor, if_pos rfl]
    cases h : firstMatch tok (sectionsAt authz [""] spath) <;> simp [h]
  · simp only [modulesFor, if_neg hm]
    rw [show ([m, ""] : List String) = [m] ++ [""] from rfl, sectionsAt_append,
      firstMatch_append]

/-! Lemmas about group-reference expansion. -/

theorem resolveFuel_chain (groups : List (String × List Subject))
    (aliases : List (String × String)) (u : String) :
    ∀ (gs : List String) (g : String) (fuel : Nat) (done : List String),
      (g :: gs).Nodup → (∀ x ∈ g :: gs, x ∉ done) →
      chainB groups (g :: gs) = true →
      Subject.user u ∈ membersOf groups (gs.getLastD g) →
      (g :: gs).length ≤ fuel →
      u ∈ resolveFuel groups aliases fuel done (Subject.group g) := by
  intro gs
  induction gs with
  | nil =>
      intro g fuel done hnd hdis hch hu hlen
      cases fuel with
      | zero => simp at hlen
      | succ f =>
          have hgd : memB g done = false := by
            rw [← Bool.not_eq_true, memB_iff]
            exact hdis g (List.mem_cons_self _ _)
          simp only [resolveFuel, hgd, Bool.false_eq_true, if_false]
          rw [mem_listFlat]
          exact ⟨Subject.user u, by simpa using hu, by simp [resolveFuel]⟩
  | cons g2 gs2 ih =>
      intro g fuel done hnd hdis hch hu hlen
      cases fuel with
      | zero => simp at hlen
      | succ f =>
          have hgd : memB g done = false := by
            rw [← Bool.not_eq_true, memB_iff]
            exact hdis g (List.mem_cons_self _ _)
          simp only [resolveFuel, hgd, Bool.false_eq_true, if_false]
          rw [mem_listFlat]
          simp only [chainB, Bool.and_eq_true] at hch
          refine ⟨Subject.group g2, (memB_iff _ _).mp hch.1, ?_⟩
          have hnd2 : (g2 :: gs2).Nodup := hnd.of_cons
          have hgnot : g ∉ g2 :: gs2 := (List.nodup_cons.mp hnd).1
          refine ih g2 f (g :: done) hnd2 ?_ hch.2 (by rwa [List.getLastD_cons] at hu) ?_
          · intro x hx
            rw [List.mem_cons]
            rintro (rfl | hxd)
            · exact hgnot hx
            · exact hdis x (List.mem_cons_of_mem _ hx) hxd
          · have := hlen
            simp only [List.length_cons] at this ⊢
            omega

theorem chain_length_le (groups : List (String × List Subject)) (u : String) :
    ∀ (gs : List String) (g : String),
      chainB groups (g :: gs) = true →
      Subject.user u ∈ membersOf groups (gs.getLastD g) →
      (g :: gs).Nodup →
      (g :: gs).length ≤ groups.length := by
  have hmem : ∀ (gs : List String) (g : String),
      chainB groups (g :: gs) = true →
      Subject.user u ∈ membersOf groups (gs.getLastD g) →
      ∀ x ∈ g :: gs, ∃ s, s ∈ membersOf groups x := by
    intro gs
    induction gs with
    | nil =>
        intro g hch hu x hx
        rcases List.mem_cons.mp hx with rfl | hx2
        · exact ⟨Subject.user u, by simpa using hu⟩
        · simp at hx2
    | cons g2 gs2 ih =>
        intro g hch hu x hx
        simp only [chainB, Bool.and_eq_true] at hch
        rcases List.mem_cons.mp hx with rfl | hx2
        · exact ⟨Subject.group g2, (memB_iff _ _).mp hch.1⟩
        · exact ih g2 hch.2 (by rwa [List.getLastD_cons] at hu) x hx2
  intro gs g hch hu hnd
  have hsub : (g :: gs) ⊆ groups.map Prod.fst := by
    intro x hx
    obtain ⟨s, hs⟩ := hmem gs g hch hu x hx
    cases halo : alookup x groups with
    | none =>
        rw [membersOf, halo] at hs
        simp at hs
    | some ms => exact alookup_eq_some_key_mem x ms groups halo
  have hle := (hnd.subperm hsub).length_le
  simpa using hle

theorem alookup_parse_mem (f : AuthzFile) (modules : List String) (m : String)
    (h : m ∈ modules) : alookup m (parse f modules) = some (buildModule f m) := by
  induction modules with
  | nil => simp at h
  | cons m2 ms ih =>
      by_cases h2 : m2 = m
      · subst h2
        simp [parse, alookup]
      · rcases List.mem_cons.mp h with h3 | h3
        · exact absurd h3.symm h2
        · simp only [parse, List.map, alookup, h2, if_neg, Bool.false_eq_true]
          exact ih h3

theorem alookup_parse_value (f : AuthzFile) (modules : List String) (m : String)
    (v : List (List String × Section)) (h : alookup m (parse f modules) = some v) :
    v = buildModule f m := by
  induction modules with
  | nil => simp [parse, alookup] at h
  | cons m2 ms ih =>
      by_cases h2 : m2 = m
      · subst h2
        simp [parse, alookup] at h
        exact h.symm
      · simp only [parse, List.map, alookup, h2, if_neg, Bool.false_eq_true] at h
        exact ih h

theorem isPrefixB_refl {α : Type} [DecidableEq α] (l : List α) : isPrefixB l l = true :=
  (isPrefixB_iff l l).mpr (List.prefix_refl l)

theorem checkPathAux_self (authz : Authz) (mods us : List String) (full : List String)
    (b : Bool) (h : checkPath0 authz mods us full = some b) :
    checkPathAux authz mods us full = some b := by
  obtain ⟨l, hl⟩ := prefixesAsc_concat full
  rw [checkPathAux, hl, List.reverse_append]
  simp [firstSome, h]

/-! The claims. -/

/-- C1 (amended): provided no section strictly below the checked path grants
the user access, the policy selects the matching path section whose path is
the longest prefix of the checked path and returns its decision, inheriting
from the most specific containing directory when the path has no deciding
section of its own; and for each principal token, a module-qualified
section for the relevant module takes precedence over an unscoped section
for the same path, with the unscoped section used as fallback when the
module-qualified one does not mention the token. (As the counterexample
shows, a path whose own most specific section denies access is nevertheless
granted access whenever some descendant section grants it, to keep parent
directories of readable resources browsable.) -/
theorem c1_most_specific_selection :
    (∀ (authz : Authz) (m : String) (us scope p q : List String) (b : Bool),
      q <+: scope ++ p →
      checkPath0 authz (modulesFor m) us q = some b →
      (∀ r, q <+: r → r <+: scope ++ p → r ≠ q →
        checkPath0 authz (modulesFor m) us r = none) →
      (∀ sp ∈ sectionPaths authz (modulesFor m), (scope ++ p) <+: sp →
        checkPath0 authz (modulesFor m) us sp ≠ some true) →
      checkPath authz (modulesFor m) us scope p = some b)
    ∧ (∀ (authz : Authz) (m : String) (spath : List String) (tok : String),
        firstMatch tok (sectionsAt authz (modulesFor m) spath) =
          match firstMatch tok (sectionsAt authz [m] spath) with
          | some b => some b
          | none => firstMatch tok (sectionsAt authz [""] spath)) := by
  constructor
  · intro authz m us scope p q b hq hdec hmax hnd
    rw [checkPath_eq_aux_of_no_descendant authz (modulesFor m) us scope p hnd]
    exact checkPathAux_most_specific authz (modulesFor m) us (scope ++ p) q b hq hdec hmax
  · exact firstMatch_modulesFor

/-- C1 counterexample: in a file with sections at /a/b (denying the user)
and at /a/b/c (granting the user), the check of /a/b returns a grant even
though the most specific matching section for /a/b is the denying section
at /a/b itself; so the decision is not that of the longest-prefix section. -/
theorem c1_counterexample :
    checkPath
        (parse ⟨[], [], [("", ["a", "b"], [(Subject.user "u", "")]),
          ("", ["a", "b", "c"], [(Subject.user "u", "r")])]⟩ [""])
        [""] (usernamesFor "u") [] ["a", "b"] = some true
    ∧ checkPath0
        (parse ⟨[], [], [("", ["a", "b"], [(Subject.user "u", "")]),
          ("", ["a", "b", "c"], [(Subject.user "u", "r")])]⟩ [""])
        [""] (usernamesFor "u") ["a", "b"] = some false := by
  constructor
  · decide
  · decide

/-- C1 witness: the longest-prefix selection applied at a concrete input:
a single section at the root decides a deeper path by inheritance. -/
theorem c1_witness :
    checkPath [("", [([], [("u", true)])])] (modulesFor "") (usernamesFor "u") [] ["a"]
      = some true := by
  refine c1_most_specific_selection.1 [("", [([], [("u", true)])])] "" (usernamesFor "u")
    [] ["a"] [] true List.nil_prefix (by decide) ?_ (by decide)
  intro r h1 h2 h3
  obtain ⟨t, ht⟩ := h2
  cases r with
  | nil => exact absurd rfl h3
  | cons x xs =>
      simp only [List.nil_append, List.cons_append] at ht
      injection ht with hx hrest
      subst hx
      have hxs : xs = [] := (List.append_eq_nil.mp hrest).1
      subst hxs
      decide

/-- C3 (amended): at the examined path, the decision is a grant exactly when
at least one of the principal tokens of the user obtains a positive entry
from its first matching section (module-qualified before unscoped), and a
denial exactly when some token obtains an entry but none a positive one;
within a parsed section, the stored grant of a user is the disjunction of
the read flags of all entries of the section that resolve to that user,
so any entry of the section, however unspecific, can grant access. -/
theorem c3_decision_characterization :
    (∀ (authz : Authz) (mods us spath : List String),
      checkPath0 authz mods us spath = some true ↔
        ∃ tok ∈ us, firstMatch tok (sectionsAt authz mods spath) = some true)
    ∧ (∀ (authz : Authz) (mods us spath : List String),
      checkPath0 authz mods us spath = some false ↔
        (¬ ∃ tok ∈ us, firstMatch tok (sectionsAt authz mods spath) = some true)
        ∧ ∃ tok ∈ us, (firstMatch tok (sectionsAt authz mods spath)).isSome = true)
    ∧ (∀ (f : AuthzFile) (u : String) (items : List (Subject × String)),
      alookup u (applyItems f [] items) =
        if anyB (fun it => memB u (resolveSubject f.groups f.aliases it.1)) items
        then some (anyB (fun it => memB u (resolveSubject f.groups f.aliases it.1)
                          && readable it.2) items)
        else none) := by
  refine ⟨checkPath0_eq_some_true_iff, checkPath0_eq_some_false_iff, ?_⟩
  intro f u items
  rw [alookup_applyItems]
  simp [alookup]

/-- C3 counterexample: in a section holding a denying user-name entry next
to a granting group entry whose group contains that same user, the decision
for the user is a grant; removing the group entry turns it into a denial,
so the less specific group entry does alter the returned decision and the
single most specific rule does not decide alone. -/
theorem c3_counterexample :
    checkPath0
        (parse ⟨[("g", [Subject.user "u"])], [],
          [("", ["p"], [(Subject.user "u", ""), (Subject.group "g", "r")])]⟩ [""])
        [""] (usernamesFor "u") ["p"] = some true
    ∧ checkPath0
        (parse ⟨[("g", [Subject.user "u"])], [],
          [("", ["p"], [(Subject.user "u", "")])]⟩ [""])
        [""] (usernamesFor "u") ["p"] = some false := by
  constructor
  · decide
  · decide

/-- C4: group expansion is total even on cyclically defined groups: along
any duplicate-free chain of group references, a user listed in the last
group of the chain is contained in the expansion of the first group, and a
section entry granting read access to that first group stores a positive
grant for the user. -/
theorem c4_cycle_termination :
    ∀ (groups : List (String × List Subject)) (aliases : List (String × String))
      (chain : List String) (u : String),
      chain ≠ [] → chain.Nodup → chainB groups chain = true →
      Subject.user u ∈ membersOf groups (chain.getLastD "") →
      u ∈ resolveSubject groups aliases (Subject.group (chain.headD ""))
      ∧ alookup u (applyItems ⟨groups, aliases, []⟩ []
          [(Subject.group (chain.headD ""), "r")]) = some true := by
  intro groups aliases chain u hne hnd hch hu
  obtain ⟨g, gs, rfl⟩ := List.exists_cons_of_ne_nil hne
  have hu2 : Subject.user u ∈ membersOf groups (gs.getLastD g) := by
    rwa [List.getLastD_cons] at hu
  have hlen := chain_length_le groups u gs g hch hu2 hnd
  have hres : u ∈ resolveFuel groups aliases (groups.length + 1) [] (Subject.group g) :=
    resolveFuel_chain groups aliases u gs g (groups.length + 1) [] hnd (by simp) hch hu2
      (by omega)
  have hres2 : u ∈ resolveSubject groups aliases (Subject.group g) := hres
  constructor
  · exact hres2
  · show alookup u (applyItems ⟨groups, aliases, []⟩ []
      [(Subject.group ((g :: gs).headD ""), "r")]) = some true
    have hhead : (g :: gs).headD "" = g := rfl
    rw [hhead]
    show alookup u (applyUsers (readable "r") []
      (resolveSubject groups aliases (Subject.group g))) = some true
    rw [alookup_applyUsers]
    have hr : readable "r" = true := by decide
    simp [hres2, alookup, hr]

/-- C4 witness: the cyclic groups of the test fixture: cycle1 refers to
cycle2, cycle2 to cycle3, cycle3 back to cycle1 and to the user; the user
is in the expansion of cycle1 and receives a read grant given to cycle1. -/
theorem c4_witness :
    "user" ∈ resolveSubject
        [("cycle1", [Subject.group "cycle2"]), ("cycle2", [Subject.group "cycle3"]),
         ("cycle3", [Subject.group "cycle1", Subject.user "user"])] []
        (Subject.group "cycle1")
    ∧ alookup "user" (applyItems
        (⟨[("cycle1", [Subject.group "cycle2"]), ("cycle2", [Subject.group "cycle3"]),
           ("cycle3", [Subject.group "cycle1", Subject.user "user"])], [], []⟩ : AuthzFile)
        [] [(Subject.group "cycle1", "r")]) = some true :=
  c4_cycle_termination
    [("cycle1", [Subject.group "cycle2"]), ("cycle2", [Subject.group "cycle3"]),
     ("cycle3", [Subject.group "cycle1", Subject.user "user"])] []
    ["cycle1", "cycle2", "cycle3"] "user" (by decide) (by decide) (by decide) (by decide)

/-- C5: parsing retains exactly the given modules as keys, maps absent
modules to nothing and each given module to its per-path table, and every
grant recorded in the result traces back to a file entry of the same module
and path whose subject resolves, through recursive group expansion and
alias substitution, to the granted user. -/
theorem c5_parse_shape :
    ∀ (f : AuthzFile) (modules : List String),
      (parse f modules).map Prod.fst = modules
      ∧ (∀ m, m ∉ modules → alookup m (parse f modules) = none)
      ∧ (∀ m, m ∈ modules → alookup m (parse f modules) = some (buildModule f m))
      ∧ (∀ m psecs p sec u b,
          alookup m (parse f modules) = some psecs → (p, sec) ∈ psecs → (u, b) ∈ sec →
          ∃ items s perms, (m, p, items) ∈ f.sections ∧ (s, perms) ∈ items
            ∧ u ∈ resolveSubject f.groups f.aliases s) := by
  intro f modules
  refine ⟨parse_keys f modules, alookup_parse_not_mem f modules,
    alookup_parse_mem f modules, ?_⟩
  intro m psecs p sec u b hm hps hub
  have hps2 : psecs = buildModule f m := alookup_parse_value f modules m psecs hm
  rw [hps2] at hps
  have htr := buildModuleAux_traced f m f.sections [] (fun s hs => hs)
    (by intro p2 sec2 h2; simp at h2) p sec hps
  exact htr u b hub

/-- C5 witness: sections of a module outside the given collection are
omitted: the parse of a file holding only a section of an absent module has
no entry for that module. -/
theorem c5_witness :
    alookup "other"
      (parse (⟨[], [], [("other", ["x"], [(Subject.user "joe", "r")])]⟩ : AuthzFile)
        ["", "module"]) = none :=
  (c5_parse_shape (⟨[], [], [("other", ["x"], [(Subject.user "joe", "r")])]⟩ : AuthzFile)
    ["", "module"]).2.1 "other" (by decide)

/-- C6: a permission granted to an alias reference applies to the user the
alias is defined as: the reference resolves to exactly the aliased
identity, an alias reference occurring as a group member puts the aliased
identity into the expansion of that group, and a section entry for the
alias reference stores its grant under the aliased identity. -/
theorem c6_alias_substitution :
    ∀ (groups : List (String × List Subject)) (aliases : List (String × String))
      (a v g perms : String),
      alookup a aliases = some v →
      resolveSubject groups aliases (Subject.aliasRef a) = [v]
      ∧ (Subject.aliasRef a ∈ membersOf groups g →
          v ∈ resolveSubject groups aliases (Subject.group g))
      ∧ alookup v (applyItems ⟨groups, aliases, []⟩ [] [(Subject.aliasRef a, perms)])
          = some (readable perms) := by
  intro groups aliases a v g perms ha
  have hres : resolveSubject groups aliases (Subject.aliasRef a) = [v] := by
    simp [resolveSubject, resolveFuel, ha]
  refine ⟨hres, ?_, ?_⟩
  · intro hmem
    show v ∈ resolveFuel groups aliases (groups.length + 1) [] (Subject.group g)
    have hgd : memB g ([] : List String) = false := rfl
    simp only [resolveFuel, hgd, Bool.false_eq_true, if_false]
    rw [mem_listFlat]
    exact ⟨Subject.aliasRef a, hmem, by simp [resolveFuel, ha]⟩
  · show alookup v (applyUsers (readable perms) []
      (resolveSubject groups aliases (Subject.aliasRef a))) = some (readable perms)
    rw [hres, alookup_applyUsers]
    simp [alookup]

/-- C6 witness: the alias jekyll defined as Mr Hyde, also reachable through
the group alias1, grants Mr Hyde the read access given to the reference. -/
theorem c6_witness :
    resolveSubject [("alias1", [Subject.aliasRef "jekyll"])] [("jekyll", "Mr Hyde")]
        (Subject.aliasRef "jekyll") = ["Mr Hyde"]
    ∧ ("Mr Hyde" ∈ resolveSubject [("alias1", [Subject.aliasRef "jekyll"])]
        [("jekyll", "Mr Hyde")] (Subject.group "alias1"))
    ∧ alookup "Mr Hyde" (applyItems
        (⟨[("alias1", [Subject.aliasRef "jekyll"])], [("jekyll", "Mr Hyde")], []⟩ :
          AuthzFile) [] [(Subject.aliasRef "jekyll", "r")]) = some (readable "r") := by
  have h := c6_alias_substitution [("alias1", [Subject.aliasRef "jekyll"])]
    [("jekyll", "Mr Hyde")] "jekyll" "Mr Hyde" "alias1" "r" (by decide)
  exact ⟨h.1, h.2.1 (by decide), h.2.2⟩

theorem single_section_check (authz : Authz) (mods : List String) (p : List String)
    (u perms : String)
    (hsec : sectionsAt authz mods p = [[(u, readable perms)]])
    (hsp : sectionPaths authz mods = [p]) :
    checkPath authz mods [u, "$authenticated", "*"] [] p = some (readable perms) := by
  have hcp0 : checkPath0 authz mods [u, "$authenticated", "*"] p = some (readable perms) := by
    rw [checkPath0, hsec]
    cases hr : readable perms with
    | true => simp [decideTokens, firstMatch, alookup]
    | false =>
        by_cases h1 : u = "$authenticated" <;> by_cases h2 : u = "*" <;>
          simp [decideTokens, firstMatch, alookup, h1, h2]
  cases hr : readable perms with
  | true =>
      rw [hr] at hcp0
      have hany : anyB (fun sp => isPrefixB p sp
          && (checkPath0 authz mods [u, "$authenticated", "*"] sp).getD false)
          (sectionPaths authz mods) = true := by
        rw [hsp]
        simp [anyB, isPrefixB_refl, hcp0]
      simp [checkPath, hany]
  | false =>
      rw [hr] at hcp0
      have hany : anyB (fun sp => isPrefixB p sp
          && (checkPath0 authz mods [u, "$authenticated", "*"] sp).getD false)
          (sectionPaths authz mods) = false := by
        rw [hsp]
        simp [anyB, hcp0]
      have h1 : checkPath authz mods [u, "$authenticated", "*"] [] p
          = checkPathAux authz mods [u, "$authenticated", "*"] ([] ++ p) := by
        simp [checkPath, hany]
      rw [h1]
      simp only [List.nil_append]
      exact checkPathAux_self authz mods _ p false hcp0

/-- C2 (amended): a permission check is undecided exactly when no principal
token of the user obtains an entry at any prefix of the checked path and no
section at or below the checked path decides a grant for the user
(descendant sections granting access make the path readable even without a
matching rule); and, undecided being distinct from an explicit denial, a
single matching entry yields the grant read off its permission string:
positive when it contains read access, negative (not undecided) when it
does not. -/
theorem c2_undecided_characterization :
    (∀ (authz : Authz) (mods us scope p : List String),
      checkPath authz mods us scope p = none ↔
        ((∀ q, q <+: scope ++ p → ∀ tok ∈ us,
            firstMatch tok (sectionsAt authz mods q) = none)
         ∧ ∀ sp ∈ sectionPaths authz mods, (scope ++ p) <+: sp →
             checkPath0 authz mods us sp ≠ some true))
    ∧ (∀ (m : String) (p : List String) (u perms : String), u ≠ "anonymous" →
        checkPath (parse ⟨[], [], [(m, p, [(Subject.user u, perms)])]⟩ (modulesFor m))
          (modulesFor m) (usernamesFor u) [] p = some (readable perms)) := by
  constructor
  · intro authz mods us scope p
    cases hC : anyB (fun sp => isPrefixB (scope ++ p) sp
        && (checkPath0 authz mods us sp).getD false) (sectionPaths authz mods) with
    | true =>
        have h1 : checkPath authz mods us scope p = some true := by
          simp [checkPath, hC]
        rw [h1]
        rw [anyB_iff] at hC
        obtain ⟨sp, hsp, hb⟩ := hC
        rw [Bool.and_eq_true] at hb
        apply iff_of_false (by simp)
        rintro ⟨hA, hB⟩
        exact hB sp hsp ((isPrefixB_iff _ _).mp hb.1) ((getD_false_eq_true_iff _).mp hb.2)
    | false =>
        have h1 : checkPath authz mods us scope p
            = checkPathAux authz mods us (scope ++ p) := by
          simp [checkPath, hC]
        rw [h1, checkPathAux_eq_none_iff]
        constructor
        · intro h
          refine ⟨?_, ?_⟩
          · intro q hq tok htok
            exact (checkPath0_eq_none_iff authz mods us q).mp (h q hq) tok htok
          · intro sp hsp hpre hcontra
            rw [anyB_eq_false_iff] at hC
            have h2 := hC sp hsp
            simp [(isPrefixB_iff (scope ++ p) sp).mpr hpre, hcontra] at h2
        · intro h q hq
          rw [checkPath0_eq_none_iff]
          intro tok htok
          exact h.1 q hq tok htok
  · intro m p u perms hu
    have husers : usernamesFor u = [u, "$authenticated", "*"] := by
      simp [usernamesFor, hu]
    by_cases hm : m = ""
    · subst hm
      have hauthz : parse (⟨[], [], [("", p, [(Subject.user u, perms)])]⟩ : AuthzFile)
          (modulesFor "") = [("", [(p, [(u, readable perms)])])] := by
        simp [modulesFor, parse, buildModule, buildModuleAux, updatePath, applyItems,
          applyUsers, resolveSubject, resolveFuel, alookup, setEntry]
      rw [hauthz, husers]
      refine single_section_check _ _ p u perms ?_ ?_
      · simp [modulesFor, sectionsAt, alookup]
      · simp [modulesFor, sectionPaths, listFlat, alookup]
    · have hauthz : parse (⟨[], [], [(m, p, [(Subject.user u, perms)])]⟩ : AuthzFile)
          (modulesFor m) = [(m, [(p, [(u, readable perms)])]), ("", [])] := by
        simp [modulesFor, hm, parse, buildModule, buildModuleAux, updatePath, applyItems,
          applyUsers, resolveSubject, resolveFuel, alookup, setEntry]
      rw [hauthz, husers]
      refine single_section_check _ _ p u perms ?_ ?_
      · simp [modulesFor, hm, sectionsAt, alookup]
      · simp [modulesFor, hm, sectionPaths, listFlat, alookup]

/-- C2 counterexample: with the only section of the file at /a/b, no rule
matches the user at the path /a (neither at /a nor at the root is any token
mentioned), yet the check of /a returns a grant rather than the undecided
result, because the section below /a grants the user access. -/
theorem c2_counterexample :
    checkPath (parse ⟨[], [], [("", ["a", "b"], [(Subject.user "u", "r")])]⟩ [""])
        [""] (usernamesFor "u") [] ["a"] = some true
    ∧ (usernamesFor "u").all (fun tok =>
        (firstMatch tok (sectionsAt
          (parse ⟨[], [], [("", ["a", "b"], [(Subject.user "u", "r")])]⟩ [""])
          [""] ["a"])).isNone
        && (firstMatch tok (sectionsAt
          (parse ⟨[], [], [("", ["a", "b"], [(Subject.user "u", "r")])]⟩ [""])
          [""] [])).isNone) = true := by
  constructor
  · decide
  · decide

/-- C2 witness: the single-matching-entry grant applied at a concrete
input: a lone write-only entry yields an explicit denial, not undecided. -/
theorem c2_witness :
    checkPath (parse ⟨[], [], [("", ["x"], [(Subject.user "user", "w")])]⟩ (modulesFor ""))
      (modulesFor "") (usernamesFor "user") [] ["x"] = some (readable "w") :=
  c2_undecided_characterization.2 "" ["x"] "user" "w" (by decide)

/-- C9 (amended): the star wildcard matches every user including anonymous;
the dollar-anonymous token matches the user anonymous and also a user whose
literal name is that token (a user is always matched by an entry carrying
its own name), leaving every remaining user undecided; the
dollar-authenticated token matches every user except anonymous and leaves
anonymous undecided. -/
theorem c9_token_matching :
    ∀ (u : String) (b : Bool) (spath : List String),
      checkPath0 [("", [(spath, [("*", b)])])] [""] (usernamesFor u) spath = some b
      ∧ checkPath0 [("", [(spath, [("$anonymous", b)])])] [""] (usernamesFor u) spath
          = (if u = "anonymous" ∨ u = "$anonymous" then some b else none)
      ∧ checkPath0 [("", [(spath, [("$authenticated", b)])])] [""] (usernamesFor u) spath
          = (if u = "anonymous" then none else some b) := by
  intro u b spath
  have hsec : ∀ (tok : String) (bb : Bool),
      sectionsAt [("", [(spath, [(tok, bb)])])] [""] spath = [[(tok, bb)]] := by
    intro tok bb
    simp [sectionsAt, alookup]
  refine ⟨?_, ?_, ?_⟩
  · rw [checkPath0, hsec]
    by_cases hu : u = "anonymous"
    · subst hu
      cases b <;> simp [usernamesFor, decideTokens, firstMatch, alookup]
    · by_cases h2 : u = "*"
      · subst h2
        cases b <;> simp [usernamesFor, decideTokens, firstMatch, alookup]
      · have h2b : ¬ ("*" : String) = u := fun hh => h2 hh.symm
        cases b <;> simp [usernamesFor, hu, decideTokens, firstMatch, alookup, h2b]
  · rw [checkPath0, hsec]
    by_cases hu : u = "anonymous"
    · subst hu
      cases b <;> simp [usernamesFor, decideTokens, firstMatch, alookup]
    · by_cases h2 : u = "$anonymous"
      · subst h2
        cases b <;> simp [usernamesFor, decideTokens, firstMatch, alookup]
      · have h2b : ¬ ("$anonymous" : String) = u := fun hh => h2 hh.symm
        simp [usernamesFor, hu, h2, decideTokens, firstMatch, alookup, h2b]
  · rw [checkPath0, hsec]
    by_cases hu : u = "anonymous"
    · subst hu
      simp [usernamesFor, decideTokens, firstMatch, alookup]
    · by_cases h2 : u = "$authenticated"
      · subst h2
        cases b <;> simp [usernamesFor, decideTokens, firstMatch, alookup]
      · have h2b : ¬ ("$authenticated" : String) = u := fun hh => h2 hh.symm
        cases b <;> simp [usernamesFor, hu, decideTokens, firstMatch, alookup, h2b]

/-- C9 counterexample: a user whose literal name is the dollar-anonymous
token is granted access by an entry for that token although the user is not
anonymous; so the token does not match only the user anonymous, and a grant
to it does not leave every other user undecided. -/
theorem c9_counterexample :
    checkPath0 [("", [(["s"], [("$anonymous", true)])])] [""]
      (usernamesFor "$anonymous") ["s"] = some true := by
  decide

theorem getAuthzInfo_spec (env : Env) (st : CacheState) (hcons : CacheConsistent env st) :
    (getAuthzInfo env st).2 = readAuthz env
    ∧ CacheConsistent env (getAuthzInfo env st).1
    ∧ (∀ content, env.file = some (st.mtime, content) → (getAuthzInfo env st).1 = st) := by
  rcases hopt : env.authzFileOpt with _ | fname
  · refine ⟨by simp [getAuthzInfo, readAuthz, hopt], ?_, ?_⟩
    · have h1 : (getAuthzInfo env st).1 = st := by simp [getAuthzInfo, hopt]
      rw [h1]
      exact hcons
    · intro c hc
      simp [getAuthzInfo, hopt]
  · by_cases hfe : fname = ""
    · subst hfe
      refine ⟨by simp [getAuthzInfo, readAuthz, hopt], ?_, ?_⟩
      · have h1 : (getAuthzInfo env st).1 = st := by simp [getAuthzInfo, hopt]
        rw [h1]
        exact hcons
      · intro c hc
        simp [getAuthzInfo, hopt]
    · rcases hfile : env.file with _ | ⟨mtime, content⟩
      · refine ⟨by simp [getAuthzInfo, readAuthz, hopt, hfe, hfile], ?_, ?_⟩
        · have h1 : (getAuthzInfo env st).1 = st := by
            simp [getAuthzInfo, hopt, hfe, hfile]
          rw [h1]
          exact hcons
        · intro c hc
          simp at hc
      · by_cases hmt : mtime = st.mtime
        · have hc := hcons mtime content hfile hmt.symm
          rcases content with _ | f
          · have hz : st.authz = none := by simpa using hc
            refine ⟨by simp [getAuthzInfo, readAuthz, hopt, hfe, hfile, hmt, hz], ?_, ?_⟩
            · have h1 : (getAuthzInfo env st).1 = st := by
                simp [getAuthzInfo, hopt, hfe, hfile, hmt, hz]
              rw [h1]
              exact hcons
            · intro c hc2
              simp [getAuthzInfo, hopt, hfe, hfile, hmt, hz]
          · have hz : st.authz = some (parse f (parseModules env)) := by simpa using hc
            refine ⟨by simp [getAuthzInfo, readAuthz, hopt, hfe, hfile, hmt, hz], ?_, ?_⟩
            · have h1 : (getAuthzInfo env st).1 = st := by
                simp [getAuthzInfo, hopt, hfe, hfile, hmt, hz]
              rw [h1]
              exact hcons
            · intro c hc2
              simp [getAuthzInfo, hopt, hfe, hfile, hmt, hz]
        · rcases content with _ | f
          · refine ⟨by simp [getAuthzInfo, readAuthz, hopt, hfe, hfile, hmt], ?_, ?_⟩
            · have h1 : (getAuthzInfo env st).1 = (⟨mtime, none⟩ : CacheState) := by
                simp [getAuthzInfo, hopt, hfe, hfile, hmt]
              rw [h1]
              intro mt c hfc hmc
              rw [hfile] at hfc
              simp only [Option.some.injEq, Prod.mk.injEq] at hfc
              rw [← hfc.2]
              simp
            · intro c hc2
              simp only [Option.some.injEq, Prod.mk.injEq] at hc2
              exact absurd hc2.1 hmt
          · refine ⟨by simp [getAuthzInfo, readAuthz, hopt, hfe, hfile, hmt], ?_, ?_⟩
            · have h1 : (getAuthzInfo env st).1
                  = (⟨mtime, some (parse f (parseModules env))⟩ : CacheState) := by
                simp [getAuthzInfo, hopt, hfe, hfile, hmt]
              rw [h1]
              intro mt c hfc hmc
              rw [hfile] at hfc
              simp only [Option.some.injEq, Prod.mk.injEq] at hfc
              rw [← hfc.2]
              simp
            · intro c hc2
              simp only [Option.some.injEq, Prod.mk.injEq] at hc2
              exact absurd hc2.1 hmt

/-- C7: the cached permission check refines the cache-free one: whenever the
cache agrees with the file system, a check returns exactly what a check
that re-reads and re-parses the file would return, the cache again agrees
with the file system afterwards (so the refinement extends to every
sequence of checks, and a check after a modification-time change reflects
the new file contents), and the cache state is left untouched when the
modification time is unchanged, so the file is re-parsed only when its
modification time changes. -/
theorem c7_cache_refinement :
    ∀ (env : Env) (st : CacheState) (user : String) (res : Option Rsrc),
      CacheConsistent env st →
      (checkPermission env st user res).2 = checkPermissionFresh env user res
      ∧ CacheConsistent env (checkPermission env st user res).1
      ∧ (∀ content, env.file = some (st.mtime, content) →
          (checkPermission env st user res).1 = st) := by
  intro env st user res hcons
  obtain ⟨h1, h2, h3⟩ := getAuthzInfo_spec env st hcons
  rcases hga : getAuthzInfo env st with ⟨st2, r⟩
  rw [hga] at h1 h2 h3
  have h1b : r = readAuthz env := h1
  have h2b : CacheConsistent env st2 := h2
  have h3b : ∀ content, env.file = some (st.mtime, content) → st2 = st :=
    fun c hc => h3 c hc
  cases r with
  | error e =>
      have hcp : checkPermission env st user res = (st2, Except.error e) := by
        simp [checkPermission, hga]
      rw [hcp]
      refine ⟨?_, h2b, h3b⟩
      rw [checkPermissionFresh, ← h1b]
      rfl
  | ok a =>
      have hcp : checkPermission env st user res
          = (st2, Except.ok (evalCheck env a user res)) := by
        simp [checkPermission, hga]
      rw [hcp]
      refine ⟨?_, h2b, h3b⟩
      rw [checkPermissionFresh, ← h1b]
      rfl

/-- C7 witness: the refinement applied at a concrete input: a fresh policy
facing a file with a new modification time returns what the cache-free
evaluator returns. -/
theorem c7_witness :
    (checkPermission
        ⟨some "authz", some (1, some ⟨[], [], []⟩), [], fun _ => ⟨[], fun _ => []⟩⟩
        initState "u" none).2
      = checkPermissionFresh
        ⟨some "authz", some (1, some ⟨[], [], []⟩), [], fun _ => ⟨[], fun _ => []⟩⟩
        "u" none := by
  have hcons : CacheConsistent
      ⟨some "authz", some (1, some ⟨[], [], []⟩), [], fun _ => ⟨[], fun _ => []⟩⟩
      initState := by
    intro mt c h1 h2
    simp only [Option.some.injEq, Prod.mk.injEq] at h1
    have h3 : (0 : Nat) = mt := h2
    have h4 : (0 : Nat) = 1 := by
      rw [h3, ← h1.1]
    exact absurd h4 (by decide)
  exact (c7_cache_refinement
    ⟨some "authz", some (1, some ⟨[], [], []⟩), [], fun _ => ⟨[], fun _ => []⟩⟩
    initState "u" none hcons).1

/-- C8: a permission check by a fresh policy raises a configuration error
(rather than returning a grant, a denial or the undecided result) when the
authz-file option is absent, is set to the empty string, names a file that
does not exist, or names a file whose contents fail to parse. -/
theorem c8_configuration_errors :
    ∀ (env : Env) (user : String) (res : Option Rsrc),
      (env.authzFileOpt = none ∨ env.authzFileOpt = some "" ∨ env.file = none
        ∨ ∃ mtime, env.file = some (mtime, none) ∧ mtime ≠ 0) →
      (checkPermission env initState user res).2 = Except.error () := by
  intro env user res h
  rcases h with h | h | h | ⟨mt, hf, hmt⟩
  · simp [checkPermission, getAuthzInfo, h]
  · simp [checkPermission, getAuthzInfo, h]
  · rcases hopt : env.authzFileOpt with _ | fname
    · simp [checkPermission, getAuthzInfo, hopt]
    · by_cases hfe : fname = "" <;>
        simp [checkPermission, getAuthzInfo, hopt, hfe, h]
  · rcases hopt : env.authzFileOpt with _ | fname
    · simp [checkPermission, getAuthzInfo, hopt]
    · by_cases hfe : fname = ""
      · simp [checkPermission, getAuthzInfo, hopt, hfe]
      · have hne : ¬ mt = initState.mtime := by
          simpa [initState] using hmt
        simp [checkPermission, getAuthzInfo, hopt, hfe, hf, hne]

/-- C8 witness: a policy with no configured authz-file option raises the
configuration error on a check. -/
theorem c8_witness :
    (checkPermission ⟨none, none, [], fun _ => ⟨[], fun _ => []⟩⟩ initState "user"
      none).2 = Except.error () :=
  c8_configuration_errors ⟨none, none, [], fun _ => ⟨[], fun _ => []⟩⟩ "user" none
    (Or.inl rfl)

/-- C10: a changeset-view check on a scoped repository is granted exactly
when the changeset is empty or at least one changed path (interpreted
relative to the repository scope) is readable by the user, and undecided
exactly when the changeset is non-empty and no changed path is readable. -/
theorem c10_changeset_decision :
    ∀ (env : Env) (authz : Authz) (user repo : String) (rev : Nat),
      (evalCheck env authz user (some (Rsrc.changeset repo rev)) = some true ↔
         (env.repos repo).changes rev = []
         ∨ ∃ c ∈ (env.repos repo).changes rev,
             checkPath authz (modulesFor repo) (usernamesFor user)
               (env.repos repo).scope c = some true)
      ∧ (evalCheck env authz user (some (Rsrc.changeset repo rev)) = none ↔
         (env.repos repo).changes rev ≠ []
         ∧ ∀ c ∈ (env.repos repo).changes rev,
             checkPath authz (modulesFor repo) (usernamesFor user)
               (env.repos repo).scope c ≠ some true) := by
  intro env authz user repo rev
  have hev : evalCheck env authz user (some (Rsrc.changeset repo rev))
      = checkChangeset authz (modulesFor repo) (usernamesFor user)
        (env.repos repo).scope ((env.repos repo).changes rev) := rfl
  rw [hev]
  by_cases hE : ((env.repos repo).changes rev).isEmpty = true
  · have hnil : (env.repos repo).changes rev = [] := List.isEmpty_iff.mp hE
    have hval : checkChangeset authz (modulesFor repo) (usernamesFor user)
        (env.repos repo).scope ((env.repos repo).changes rev) = some true := by
      simp [checkChangeset, hE]
    rw [hval]
    exact ⟨iff_of_true rfl (Or.inl hnil),
      iff_of_false (by simp) (fun hcontra => hcontra.1 hnil)⟩
  · have hne : (env.repos repo).changes rev ≠ [] := by
      intro hh
      rw [hh] at hE
      simp at hE
    cases hA : anyB (fun c => (checkPath authz (modulesFor repo) (usernamesFor user)
        (env.repos repo).scope c).getD false) ((env.repos repo).changes rev) with
    | true =>
        have hval : checkChangeset authz (modulesFor repo) (usernamesFor user)
            (env.repos repo).scope ((env.repos repo).changes rev) = some true := by
          simp [checkChangeset, hA]
        rw [hval]
        rw [anyB_iff] at hA
        obtain ⟨c, hc, hg⟩ := hA
        rw [getD_false_eq_true_iff] at hg
        exact ⟨iff_of_true rfl (Or.inr ⟨c, hc, hg⟩),
          iff_of_false (by simp) (fun hcontra => hcontra.2 c hc hg)⟩
    | false =>
        have hval : checkChangeset authz (modulesFor repo) (usernamesFor user)
            (env.repos repo).scope ((env.repos repo).changes rev) = none := by
          simp [checkChangeset, hA, hE]
        rw [hval]
        rw [anyB_eq_false_iff] at hA
        refine ⟨iff_of_false (by simp) ?_, iff_of_true rfl ⟨hne, ?_⟩⟩
        · rintro (hc | ⟨c, hc, hg⟩)
          · exact hne hc
          · have := hA c hc
            rw [hg] at this
            simp at this
        · intro c hc hg
          have := hA c hc
          rw [hg] at this
          simp at this

end SvnAuthz
